import Mathlib

/-!
Verification of the ShortcutHelper core (shortcut_helper.py): keybinding
normalization (`parse_keybinding`), registry merge (`get_all_shortcuts`),
live filtering (`filter_shortcuts`), result grouping
(`update_shortcuts_list_from_keys`) and the modifier press tracker
(`on_press`).  Python dicts are modelled as insertion-ordered association
lists with unique keys; strings are modelled as Lean strings, with the
ASCII case maps `Char.toLower`/`Char.toUpper` standing in for
`str.lower`/`str.upper`.
-/

namespace ShortcutHelper

/-- Python `str.isspace`-style whitespace set used by `str.strip()`. -/
def pyIsSpace (c : Char) : Bool :=
  c = ' ' || c = '\t' || c = '\n' || c = '\r' || c = '\x0b' || c = '\x0c'

/-- Python `s.strip()` on a character list: drop whitespace at both ends. -/
def pyStrip (cs : List Char) : List Char :=
  ((cs.dropWhile pyIsSpace).reverse.dropWhile pyIsSpace).reverse

/-- Python `s.capitalize()`: first character uppercased, rest lowercased. -/
def pyCapitalize : List Char → List Char
  | [] => []
  | c :: rest => Char.toUpper c :: rest.map Char.toLower

/-- Scanner state for `re.findall(r'<([^>]+)>', s)`: the second argument is
`none` outside a candidate match and `some content` after an opening `<`
with the (possibly empty) content read so far.  A candidate closes at the
first `>`; an empty content (`<>`) or end of input yields no match, exactly
as the regex (whose content class `[^>]+` is non-empty and may contain `<`). -/
def findTagsAux : List Char → Option (List Char) → List (List Char)
  | [], _ => []
  | c :: rest, none =>
    if c = '<' then findTagsAux rest (some []) else findTagsAux rest none
  | c :: rest, some content =>
    if c = '>' then
      if content = [] then findTagsAux rest none
      else content :: findTagsAux rest none
    else findTagsAux rest (some (content ++ [c]))

/-- `re.findall(r'<([^>]+)>', s)`: contents of the bracketed tags, left to
right, non-overlapping. -/
def findTags (cs : List Char) : List (List Char) :=
  findTagsAux cs none

/-- Scanner for `re.sub(r'<[^>]+>', '', s)`, same state as `findTagsAux`;
characters of failed candidates (`<>` or an unclosed `<`) are kept verbatim,
matched tags are dropped. -/
def removeTagsAux : List Char → Option (List Char) → List Char
  | [], none => []
  | [], some content => '<' :: content
  | c :: rest, none =>
    if c = '<' then removeTagsAux rest (some [])
    else c :: removeTagsAux rest none
  | c :: rest, some content =>
    if c = '>' then
      if content = [] then '<' :: '>' :: removeTagsAux rest none
      else removeTagsAux rest none
    else removeTagsAux rest (some (content ++ [c]))

/-- `re.sub(r'<[^>]+>', '', s)`: the input with every bracketed tag removed. -/
def removeTags (cs : List Char) : List Char :=
  removeTagsAux cs none

/-- Accumulator of the tag-classification loop in `parse_keybinding`. -/
structure ParseAcc where
  modifiers : List String
  key : Option (List Char)
  has_control : Bool
  has_super : Bool
deriving Repr, DecidableEq

/-- Control-class tag contents (already lowercased). -/
def isControlTag (ml : List Char) : Bool :=
  ml = "control".toList || ml = "ctrl".toList || ml = "primary".toList

/-- Super-class tag contents (already lowercased). -/
def isSuperTag (ml : List Char) : Bool :=
  ml = "super".toList || ml = "mod4".toList || ml = "mod5".toList

/-- One iteration of the `for match in matches` loop of `parse_keybinding`. -/
def classifyTag (acc : ParseAcc) (m : List Char) : ParseAcc :=
  let ml := m.map Char.toLower
  if isControlTag ml then { acc with has_control := true }
  else if isSuperTag ml then { acc with has_super := true }
  else if ml = "shift".toList then { acc with modifiers := acc.modifiers ++ ["Shift"] }
  else if ml = "alt".toList then { acc with modifiers := acc.modifiers ++ ["Alt"] }
  else { acc with key := some m }

/-- The state after the whole tag loop of `parse_keybinding` has run. -/
def parse_acc (binding : String) : ParseAcc :=
  (findTags binding.toList).foldl classifyTag ⟨[], none, false, false⟩

/-- The final-key extraction of `parse_keybinding`: the last non-modifier tag
content if any, otherwise the de-tagged residue stripped of whitespace and
with every `+` removed; `none` when nothing remains. -/
def extract_key (binding : String) : Option (List Char) :=
  match (parse_acc binding).key with
  | some k => some k
  | none =>
    let remaining := pyStrip (removeTags binding.toList)
    if remaining = [] then none
    else
      let r2 := pyStrip (remaining.filter (fun c => c ≠ '+'))
      if r2 = [] then none else some r2

/-- The `key_map` lookup table of `parse_keybinding`. -/
def key_map : List (List Char × String) :=
  [("return".toList, "Enter"), ("space".toList, "Space"),
   ("backspace".toList, "Backspace"), ("delete".toList, "Delete"),
   ("escape".toList, "Esc"), ("tab".toList, "Tab"),
   ("home".toList, "Home"), ("end".toList, "End"),
   ("page_up".toList, "PageUp"), ("page_down".toList, "PageDown"),
   ("up".toList, "Up"), ("down".toList, "Down"),
   ("left".toList, "Left"), ("right".toList, "Right"),
   ("f1".toList, "F1"), ("f2".toList, "F2"), ("f3".toList, "F3"),
   ("f4".toList, "F4"), ("f5".toList, "F5"), ("f6".toList, "F6"),
   ("f7".toList, "F7"), ("f8".toList, "F8"), ("f9".toList, "F9"),
   ("f10".toList, "F10"), ("f11".toList, "F11"), ("f12".toList, "F12")]

/-- `key_map.get(key_lower, key.upper() if len(key) == 1 else key.capitalize())`. -/
def normalizeKey (k : List Char) : String :=
  let kl := k.map Char.toLower
  match (key_map.find? (fun p => p.1 = kl)).map Prod.snd with
  | some v => v
  | none =>
    if k.length = 1 then String.mk (k.map Char.toUpper)
    else String.mk (pyCapitalize k)

/-- `SystemKeymapImporter.parse_keybinding`, the keybinding normalizer. -/
def parse_keybinding (binding : String) : Option String :=
  if binding = "" ∨ binding = "[]" then none
  else
    match extract_key binding with
    | none => none
    | some k =>
      let acc := parse_acc binding
      let normalized_key := normalizeKey k
      let base_pfx : String := if acc.has_super then "Super+" else ""
      let key_with_modifiers :=
        if acc.modifiers = [] then normalized_key
        else String.intercalate "+" acc.modifiers ++ "+" ++ normalized_key
      some (base_pfx ++ key_with_modifiers)

example : parse_keybinding "<Control>c" = some "C" := by decide
example : parse_keybinding "<Control><Shift>c" = some "Shift+C" := by decide
example : parse_keybinding "<Alt><Shift>Return" = some "Alt+Shift+Enter" := by decide
example : parse_keybinding "<Super>Left" = some "Super+Left" := by decide
example : parse_keybinding "" = none := by decide
example : parse_keybinding "[]" = none := by decide
example : parse_keybinding "<Control><Shift><Alt>Left" = some "Shift+Alt+Left" := by decide

/-! ## Python dicts as insertion-ordered association lists -/

/-- A Python `dict` with string keys and values: an insertion-ordered
association list whose keys are unique. -/
abbrev Dict := List (String × String)

/-- The keys of a dict, in insertion order. -/
def dkeys (d : Dict) : List String := d.map Prod.fst

/-- Python `k in d`. -/
def hasKey (d : Dict) (k : String) : Bool := d.any (fun p => p.1 = k)

/-- Python `d[k]` as an option (also `d.get(k)`): the value at the first —
in a dict, only — pair with key `k`. -/
def dictGet : Dict → String → Option String
  | [], _ => none
  | p :: rest, k => if p.1 = k then some p.2 else dictGet rest k

/-- Python `d[k] = v`: replace the value in place when the key exists,
append the pair otherwise. -/
def dictInsert : Dict → String → String → Dict
  | [], k, v => [(k, v)]
  | p :: rest, k, v =>
    if p.1 = k then (k, v) :: rest else p :: dictInsert rest k v

/-! ## Registry merge: `KeymapHelper.get_all_shortcuts` -/

/-- `get_all_shortcuts`: the dict `{**imported, **configured}` — start from
the imported entries and insert every configured entry in order. -/
def get_all_shortcuts (imported configured : Dict) : Dict :=
  configured.foldl (fun acc p => dictInsert acc p.1 p.2) imported

/-! ## Filter engine: `KeymapPopup.filter_shortcuts` -/

/-- The four modifier booleans handed to `filter_shortcuts`. -/
structure Pressed where
  ctrl : Bool
  super : Bool
  alt : Bool
  shift : Bool
deriving Repr, DecidableEq

/-- The `prefix_parts` list of `filter_shortcuts`, in the fixed order
Ctrl, Super, Alt, Shift. -/
def searchParts (p : Pressed) : List String :=
  (if p.ctrl then ["Ctrl"] else []) ++ (if p.super then ["Super"] else []) ++
  (if p.alt then ["Alt"] else []) ++ (if p.shift then ["Shift"] else [])

/-- The `search_prefix` string: the held modifiers joined with `+` and a
trailing `+`. -/
def searchPfxStr (p : Pressed) : String :=
  String.intercalate "+" (searchParts p) ++ "+"

/-- Case-insensitive `key.lower().startswith(sp_lower)` test, with the
search pattern already lowercased to a character list. -/
def startsLower (k : String) (sp : List Char) : Bool :=
  sp.isPrefixOf (k.toList.map Char.toLower)

/-- One step of the direct-selection loop of `filter_shortcuts`. -/
def directStep (sp : List Char) (acc : Dict) (kv : String × String) : Dict :=
  if startsLower kv.1 sp then dictInsert acc kv.1 kv.2 else acc

/-- One step of the alias loop of `filter_shortcuts`: `kv` is an
`(alias, mapped_key)` pair of `key_aliases`. -/
def aliasStep (shortcuts : Dict) (sp : List Char) (acc : Dict)
    (kv : String × String) : Dict :=
  if startsLower kv.1 sp then
    match dictGet shortcuts kv.2 with
    | some d => dictInsert acc kv.1 (d ++ " (via " ++ kv.2 ++ ")")
    | none => acc
  else acc

/-- `KeymapPopup.filter_shortcuts`: the dict stored in
`self.filtered_shortcuts`.  With no pressed modifier the result is empty;
otherwise entries of the merged view whose key starts (case-insensitively)
with the search string are selected, then matching aliases whose target
exists are written on top. -/
def filter_shortcuts (shortcuts key_aliases : Dict) (p : Pressed) : Dict :=
  if searchParts p = [] then []
  else
    let sp := (searchPfxStr p).toList.map Char.toLower
    let direct := shortcuts.foldl (directStep sp) []
    key_aliases.foldl (aliasStep shortcuts sp) direct

/-- The modifier pieces of `update_title_from_keys`, upper-cased, in the
fixed order Ctrl, Super, Alt, Shift. -/
def titleParts (p : Pressed) : List String :=
  (if p.ctrl then ["CTRL"] else []) ++ (if p.super then ["SUPER"] else []) ++
  (if p.alt then ["ALT"] else []) ++ (if p.shift then ["SHIFT"] else [])

/-- `update_title_from_keys`: the markup written into the popup title. -/
def popup_title (p : Pressed) : String :=
  if titleParts p = [] then "<b>Available Shortcuts</b>"
  else "<b>Available Shortcuts (" ++ String.intercalate " + " (titleParts p) ++ " + ...)</b>"

/-! ## Grouping: `KeymapPopup.update_shortcuts_list_from_keys` -/

/-- Code-point lexicographic `≤` on character lists: Python's string
comparison. -/
def lexLe : List Char → List Char → Bool
  | [], _ => true
  | _ :: _, [] => false
  | a :: as, b :: bs => if a = b then lexLe as bs else decide (a < b)

/-- The sort comparator: Python `list.sort(key=lambda x: x[0].lower())`,
i.e. case-insensitive key order. -/
def leKeyLower (a b : String × String) : Bool :=
  lexLe (a.1.toList.map Char.toLower) (b.1.toList.map Char.toLower)

/-- Insert `x` into an already sorted list, after every element `≤ x`
(so equal elements keep their arrival order). -/
def insSorted {α : Type} (le : α → α → Bool) (x : α) : List α → List α
  | [] => [x]
  | y :: ys => if le y x then y :: insSorted le x ys else x :: y :: ys

/-- A stable sort by repeated insertion, processing the list left to right;
extensionally equal to Python's stable `list.sort` for a total preorder. -/
def stableSort {α : Type} (le : α → α → Bool) (l : List α) : List α :=
  l.foldl (fun acc x => insSorted le x acc) []

/-- `update_shortcuts_list_from_keys`: partition the filtered entries into
the configured ("user") group and the rest ("imported"), each sorted by
case-insensitive key (Python's stable sort). -/
def update_shortcuts_list_from_keys (filtered configured : Dict) : Dict × Dict :=
  (stableSort leKeyLower (filtered.filter (fun kv => hasKey configured kv.1)),
   stableSort leKeyLower (filtered.filter (fun kv => !hasKey configured kv.1)))

/-- The rows packed into the popup box, in emission order: the user group,
then the imported group. -/
def emitted_rows (filtered configured : Dict) : Dict :=
  (update_shortcuts_list_from_keys filtered configured).1 ++
  (update_shortcuts_list_from_keys filtered configured).2

/-! ## Modifier press tracker: `KeymapHelper.on_press` -/

/-- The keys distinguished by `on_press`/`on_release`; `keycode vk` models a
pynput `KeyCode` (which carries a `vk` and is distinct from every named
`keyboard.Key`), `other` any other named key. -/
inductive PKey where
  | ctrl_l | ctrl_r | cmd | cmd_r | shift_l | shift_r | alt_l | alt_r
  | keycode (vk : Nat)
  | other
deriving Repr, DecidableEq

/-- Calls scheduled on the GTK main loop by `on_press`. -/
inductive Notif where
  | showPopup
  | updateFilter
deriving Repr, DecidableEq

/-- The mutable session state read and written by `on_press`: the four
modifier flags and whether the popup object exists. -/
structure HState where
  ctrl_pressed : Bool
  super_pressed : Bool
  alt_pressed : Bool
  shift_pressed : Bool
  popup : Bool
deriving Repr, DecidableEq

/-- `KeymapHelper.on_press`: the state after the callback and the list of
calls it schedules with `GLib.idle_add`. -/
def on_press (st : HState) (k : PKey) : HState × List Notif :=
  match k with
  | .ctrl_l | .ctrl_r =>
    if st.ctrl_pressed then (st, [])
    else ({ st with ctrl_pressed := true }, [.showPopup])
  | .cmd | .cmd_r =>
    if st.super_pressed then (st, [])
    else ({ st with super_pressed := true }, [.showPopup])
  | .shift_l | .shift_r =>
    if st.shift_pressed then (st, [])
    else
      let st' := { st with shift_pressed := true }
      if st.ctrl_pressed || st.super_pressed || st.alt_pressed then
        if st.popup then (st', [.updateFilter]) else (st', [.showPopup])
      else (st', [])
  | .alt_l | .alt_r =>
    if st.alt_pressed then (st, [])
    else ({ st with alt_pressed := true }, [.showPopup])
  | .keycode vk =>
    if vk = 133 ∨ vk = 134 then
      if st.super_pressed then (st, [])
      else ({ st with super_pressed := true }, [.showPopup])
    else (st, [])
  | .other => (st, [])

/-! ## Sanity checks of the model on concrete inputs -/

example :
    filter_shortcuts [("Shift+c", "Copy")] [] ⟨false, false, false, true⟩ =
      [("Shift+c", "Copy")] := by decide

example : filter_shortcuts [("Shift+c", "Copy")] [] ⟨false, false, false, false⟩ = [] := by
  decide

example :
    filter_shortcuts [("Ctrl+Shift+T", "Reopen tab"), ("Ctrl+c", "Copy")] []
      ⟨true, false, false, true⟩ = [("Ctrl+Shift+T", "Reopen tab")] := by decide

example :
    filter_shortcuts [("Insert", "Cut"), ("Shift+Delete", "Del")]
      [("Shift+Delete", "Insert")] ⟨false, false, false, true⟩ =
      [("Shift+Delete", "Cut (via Insert)")] := by decide

example : get_all_shortcuts [("a", "i1"), ("b", "i2")] [("b", "c2"), ("c", "c3")] =
    [("a", "i1"), ("b", "c2"), ("c", "c3")] := by decide

example :
    update_shortcuts_list_from_keys [("ab", "Y"), ("a", "X"), ("aa", "Z")] [("a", "X")] =
      ([("a", "X")], [("aa", "Z"), ("ab", "Y")]) := by decide

/-! ## Dict lemmas -/

theorem mem_dkeys {d : Dict} {k : String} : k ∈ dkeys d ↔ ∃ v, (k, v) ∈ d := by
  simp only [dkeys, List.mem_map, Prod.exists]
  constructor
  · rintro ⟨a, b, hab, rfl⟩
    exact ⟨b, hab⟩
  · rintro ⟨v, hv⟩
    exact ⟨k, v, hv, rfl⟩

theorem hasKey_iff {d : Dict} {k : String} : hasKey d k = true ↔ k ∈ dkeys d := by
  simp only [hasKey, List.any_eq_true, decide_eq_true_eq, dkeys, List.mem_map]

theorem dictGet_eq_none_iff {d : Dict} {k : String} :
    dictGet d k = none ↔ k ∉ dkeys d := by
  induction d with
  | nil => simp [dictGet, dkeys]
  | cons p rest ih =>
    by_cases h : p.1 = k
    · simp [dictGet, h, dkeys]
    · simp only [dictGet, if_neg h, dkeys, List.map_cons, List.mem_cons]
      simp only [dkeys] at ih
      rw [ih]
      constructor
      · intro hk
        rintro (rfl | hm)
        · exact h rfl
        · exact hk hm
      · intro hk hm
        exact hk (Or.inr hm)

theorem dictGet_isSome_iff {d : Dict} {k : String} :
    (dictGet d k).isSome = true ↔ k ∈ dkeys d := by
  constructor
  · intro h
    by_contra hk
    rw [dictGet_eq_none_iff.mpr hk] at h
    simp at h
  · intro hk
    cases hg : dictGet d k with
    | none => exact absurd (dictGet_eq_none_iff.mp hg) (by simp [hk])
    | some v => simp

theorem mem_dkeys_dictInsert {d : Dict} {k v k' : String} :
    k' ∈ dkeys (dictInsert d k v) ↔ k' ∈ dkeys d ∨ k' = k := by
  induction d with
  | nil => simp [dictInsert, dkeys, eq_comm]
  | cons p rest ih =>
    by_cases h : p.1 = k
    · have hred : dictInsert (p :: rest) k v = (k, v) :: rest := by
        simp [dictInsert, h]
      rw [hred]
      simp only [dkeys, List.map_cons, List.mem_cons, ← h]
      tauto
    · simp only [dictInsert, if_neg h, dkeys, List.map_cons, List.mem_cons]
      simp only [dkeys] at ih
      rw [ih]
      tauto

theorem dictGet_dictInsert_self {d : Dict} {k v : String} :
    dictGet (dictInsert d k v) k = some v := by
  induction d with
  | nil => simp [dictInsert, dictGet]
  | cons p rest ih =>
    by_cases h : p.1 = k
    · simp [dictInsert, h, dictGet]
    · simp [dictInsert, if_neg h, dictGet, h, ih]

theorem dictGet_dictInsert_ne {d : Dict} {k v k' : String} (h : k' ≠ k) :
    dictGet (dictInsert d k v) k' = dictGet d k' := by
  induction d with
  | nil => simp [dictInsert, dictGet, Ne.symm h]
  | cons p rest ih =>
    by_cases hp : p.1 = k
    · have hred : dictInsert (p :: rest) k v = (k, v) :: rest := by
        simp [dictInsert, hp]
      rw [hred]
      simp [dictGet, Ne.symm h, hp]
    · have hred : dictInsert (p :: rest) k v = p :: dictInsert rest k v := by
        simp [dictInsert, hp]
      rw [hred]
      by_cases hp' : p.1 = k'
      · simp [dictGet, hp']
      · simp [dictGet, hp', ih]

theorem nodup_dkeys_dictInsert {d : Dict} {k v : String}
    (h : (dkeys d).Nodup) : (dkeys (dictInsert d k v)).Nodup := by
  induction d with
  | nil => simp [dictInsert, dkeys]
  | cons p rest ih =>
    simp only [dkeys, List.map_cons, List.nodup_cons] at h
    by_cases hp : p.1 = k
    · have hred : dictInsert (p :: rest) k v = (k, v) :: rest := by
        simp [dictInsert, hp]
      rw [hred]
      simp only [dkeys, List.map_cons, List.nodup_cons]
      exact ⟨hp ▸ h.1, h.2⟩
    · simp only [dictInsert, if_neg hp, dkeys, List.map_cons, List.nodup_cons]
      refine ⟨?_, ih h.2⟩
      intro hmem
      rcases (show p.1 ∈ dkeys rest ∨ p.1 = k from mem_dkeys_dictInsert.mp hmem) with hm | hm
      · exact h.1 hm
      · exact hp hm

theorem dictGet_eq_some_iff_of_nodup {d : Dict} {k v : String}
    (h : (dkeys d).Nodup) : dictGet d k = some v ↔ (k, v) ∈ d := by
  induction d with
  | nil => simp [dictGet]
  | cons p rest ih =>
    simp only [dkeys, List.map_cons, List.nodup_cons] at h
    by_cases hp : p.1 = k
    · have hred : dictGet (p :: rest) k = some p.2 := by simp [dictGet, hp]
      rw [hred]
      simp only [List.mem_cons]
      constructor
      · intro h'
        injection h' with h'
        refine Or.inl ?_
        rw [← hp, ← h']
      · rintro (heq | hmem)
        · rw [← heq]
        · exact absurd (mem_dkeys.mpr ⟨v, hmem⟩) (hp ▸ h.1)
    · have hred : dictGet (p :: rest) k = dictGet rest k := by simp [dictGet, hp]
      rw [hred, ih h.2]
      simp only [List.mem_cons]
      constructor
      · exact Or.inr
      · rintro (heq | hmem)
        · exact absurd (congrArg Prod.fst heq).symm hp
        · exact hmem

/-! ## Merge lemmas -/

theorem foldl_insert_get_notin {b : Dict} {k : String} (a : Dict)
    (hk : k ∉ dkeys b) :
    dictGet (b.foldl (fun acc p => dictInsert acc p.1 p.2) a) k = dictGet a k := by
  induction b generalizing a with
  | nil => simp
  | cons p rest ih =>
    simp only [dkeys, List.map_cons, List.mem_cons, not_or] at hk
    simp only [List.foldl_cons]
    rw [ih (dictInsert a p.1 p.2) (by simpa [dkeys] using hk.2)]
    exact dictGet_dictInsert_ne hk.1

theorem foldl_insert_get_mem {b : Dict} {k v : String} (a : Dict)
    (hnd : (dkeys b).Nodup) (hmem : (k, v) ∈ b) :
    dictGet (b.foldl (fun acc p => dictInsert acc p.1 p.2) a) k = some v := by
  induction b generalizing a with
  | nil => simp at hmem
  | cons p rest ih =>
    simp only [dkeys, List.map_cons, List.nodup_cons] at hnd
    simp only [List.foldl_cons]
    rcases List.mem_cons.mp hmem with heq | hmem'
    · have hk : k = p.1 := congrArg Prod.fst heq
      have hv : v = p.2 := congrArg Prod.snd heq
      have hnotin : k ∉ dkeys rest := by rw [hk]; exact hnd.1
      rw [foldl_insert_get_notin _ hnotin, hk, hv]
      exact dictGet_dictInsert_self
    · exact ih _ hnd.2 hmem'

theorem mem_dkeys_foldl_insert {b : Dict} {k : String} (a : Dict) :
    k ∈ dkeys (b.foldl (fun acc p => dictInsert acc p.1 p.2) a) ↔
      k ∈ dkeys a ∨ k ∈ dkeys b := by
  induction b generalizing a with
  | nil => simp [dkeys]
  | cons p rest ih =>
    simp only [List.foldl_cons]
    rw [ih (dictInsert a p.1 p.2), @mem_dkeys_dictInsert a p.1 p.2 k]
    simp only [dkeys, List.map_cons, List.mem_cons]
    tauto

/-! ## Filter lemmas -/

theorem searchParts_eq_nil_iff {p : Pressed} :
    searchParts p = [] ↔ p = ⟨false, false, false, false⟩ := by
  rcases p with ⟨c, s, a, sh⟩
  cases c <;> cases s <;> cases a <;> cases sh <;> simp [searchParts]

theorem mem_dkeys_foldl_direct {s : Dict} {sp : List Char} {k : String}
    (acc : Dict) :
    k ∈ dkeys (s.foldl (directStep sp) acc) ↔
      k ∈ dkeys acc ∨ ∃ v, (k, v) ∈ s ∧ startsLower k sp = true := by
  induction s generalizing acc with
  | nil => simp
  | cons q rest ih =>
    simp only [List.foldl_cons, directStep]
    by_cases hq : startsLower q.1 sp = true
    · rw [if_pos hq, ih (dictInsert acc q.1 q.2)]
      have h2 := @mem_dkeys_dictInsert acc q.1 q.2 k
      rw [h2]
      constructor
      · rintro ((hm | rfl) | ⟨v, hv, hsl⟩)
        · exact Or.inl hm
        · exact Or.inr ⟨q.2, List.mem_cons_self .., hq⟩
        · exact Or.inr ⟨v, List.mem_cons_of_mem _ hv, hsl⟩
      · rintro (hm | ⟨v, hv, hsl⟩)
        · exact Or.inl (Or.inl hm)
        · rcases List.mem_cons.mp hv with heq | hv'
          · exact Or.inl (Or.inr (congrArg Prod.fst heq))
          · exact Or.inr ⟨v, hv', hsl⟩
    · rw [if_neg hq, ih acc]
      constructor
      · rintro (hm | ⟨v, hv, hsl⟩)
        · exact Or.inl hm
        · exact Or.inr ⟨v, List.mem_cons_of_mem _ hv, hsl⟩
      · rintro (hm | ⟨v, hv, hsl⟩)
        · exact Or.inl hm
        · rcases List.mem_cons.mp hv with heq | hv'
          · have hk : k = q.1 := congrArg Prod.fst heq
            rw [hk] at hsl
            exact absurd hsl hq
          · exact Or.inr ⟨v, hv', hsl⟩

theorem mem_dkeys_foldl_alias {s al : Dict} {sp : List Char} {k : String}
    (acc : Dict) :
    k ∈ dkeys (al.foldl (aliasStep s sp) acc) ↔
      k ∈ dkeys acc ∨
        ∃ t, (k, t) ∈ al ∧ startsLower k sp = true ∧ dictGet s t ≠ none := by
  induction al generalizing acc with
  | nil => simp
  | cons q rest ih =>
    simp only [List.foldl_cons, aliasStep]
    by_cases hq : startsLower q.1 sp = true
    · rw [if_pos hq]
      cases hget : dictGet s q.2 with
      | none =>
        rw [ih acc]
        constructor
        · rintro (hm | ⟨t, ht, hsl, hne⟩)
          · exact Or.inl hm
          · exact Or.inr ⟨t, List.mem_cons_of_mem _ ht, hsl, hne⟩
        · rintro (hm | ⟨t, ht, hsl, hne⟩)
          · exact Or.inl hm
          · rcases List.mem_cons.mp ht with heq | ht'
            · refine absurd ?_ hne
              have h1 : t = q.2 := congrArg Prod.snd heq
              rw [h1]
              exact hget
            · exact Or.inr ⟨t, ht', hsl, hne⟩
      | some dv =>
        rw [ih (dictInsert acc q.1 (dv ++ " (via " ++ q.2 ++ ")"))]
        have h2 := @mem_dkeys_dictInsert acc q.1 (dv ++ " (via " ++ q.2 ++ ")") k
        rw [h2]
        constructor
        · rintro ((hm | rfl) | ⟨t, ht, hsl, hne⟩)
          · exact Or.inl hm
          · exact Or.inr ⟨q.2, List.mem_cons_self .., hq, by simp [hget]⟩
          · exact Or.inr ⟨t, List.mem_cons_of_mem _ ht, hsl, hne⟩
        · rintro (hm | ⟨t, ht, hsl, hne⟩)
          · exact Or.inl (Or.inl hm)
          · rcases List.mem_cons.mp ht with heq | ht'
            · exact Or.inl (Or.inr (congrArg Prod.fst heq))
            · exact Or.inr ⟨t, ht', hsl, hne⟩
    · rw [if_neg hq, ih acc]
      constructor
      · rintro (hm | ⟨t, ht, hsl, hne⟩)
        · exact Or.inl hm
        · exact Or.inr ⟨t, List.mem_cons_of_mem _ ht, hsl, hne⟩
      · rintro (hm | ⟨t, ht, hsl, hne⟩)
        · exact Or.inl hm
        · rcases List.mem_cons.mp ht with heq | ht'
          · have hk : k = q.1 := congrArg Prod.fst heq
            rw [hk] at hsl
            exact absurd hsl hq
          · exact Or.inr ⟨t, ht', hsl, hne⟩

theorem foldl_alias_get_notin {al s : Dict} {sp : List Char} {k : String}
    (acc : Dict) (hk : k ∉ dkeys al) :
    dictGet (al.foldl (aliasStep s sp) acc) k = dictGet acc k := by
  induction al generalizing acc with
  | nil => simp
  | cons q rest ih =>
    simp only [dkeys, List.map_cons, List.mem_cons, not_or] at hk
    simp only [List.foldl_cons, aliasStep]
    by_cases hq : startsLower q.1 sp = true
    · rw [if_pos hq]
      cases hget : dictGet s q.2 with
      | none => exact ih acc (by simpa [dkeys] using hk.2)
      | some dv =>
        rw [ih _ (by simpa [dkeys] using hk.2)]
        exact dictGet_dictInsert_ne hk.1
    · rw [if_neg hq]
      exact ih acc (by simpa [dkeys] using hk.2)

theorem foldl_alias_get_mem {al s : Dict} {sp : List Char} {k t dv : String}
    (acc : Dict) (hnd : (dkeys al).Nodup) (hmem : (k, t) ∈ al)
    (hsl : startsLower k sp = true) (hget : dictGet s t = some dv) :
    dictGet (al.foldl (aliasStep s sp) acc) k =
      some (dv ++ " (via " ++ t ++ ")") := by
  induction al generalizing acc with
  | nil => simp at hmem
  | cons q rest ih =>
    simp only [dkeys, List.map_cons, List.nodup_cons] at hnd
    simp only [List.foldl_cons, aliasStep]
    rcases List.mem_cons.mp hmem with heq | hmem'
    · have hk : k = q.1 := congrArg Prod.fst heq
      have ht : t = q.2 := congrArg Prod.snd heq
      rw [if_pos (by rw [← hk]; exact hsl)]
      rw [← ht, hget]
      have hnotin : k ∉ dkeys rest := by rw [hk]; exact hnd.1
      rw [foldl_alias_get_notin _ hnotin, ← hk]
      exact dictGet_dictInsert_self
    · exact ih _ hnd.2 hmem'

theorem nodup_dkeys_foldl_direct {s : Dict} {sp : List Char} (acc : Dict)
    (h : (dkeys acc).Nodup) : (dkeys (s.foldl (directStep sp) acc)).Nodup := by
  induction s generalizing acc with
  | nil => exact h
  | cons q rest ih =>
    simp only [List.foldl_cons, directStep]
    by_cases hq : startsLower q.1 sp = true
    · rw [if_pos hq]
      exact ih _ (nodup_dkeys_dictInsert h)
    · rw [if_neg hq]
      exact ih _ h

theorem nodup_dkeys_foldl_alias {al s : Dict} {sp : List Char} (acc : Dict)
    (h : (dkeys acc).Nodup) : (dkeys (al.foldl (aliasStep s sp) acc)).Nodup := by
  induction al generalizing acc with
  | nil => exact h
  | cons q rest ih =>
    simp only [List.foldl_cons, aliasStep]
    by_cases hq : startsLower q.1 sp = true
    · rw [if_pos hq]
      cases dictGet s q.2 with
      | none => exact ih _ h
      | some dv => exact ih _ (nodup_dkeys_dictInsert h)
    · rw [if_neg hq]
      exact ih _ h

/-! ## Order lemmas for the sort comparator -/

theorem lexLe_total (a b : List Char) : lexLe a b = true ∨ lexLe b a = true := by
  induction a generalizing b with
  | nil => exact Or.inl rfl
  | cons x as ih =>
    cases b with
    | nil => exact Or.inr rfl
    | cons y bs =>
      by_cases hxy : x = y
      · subst hxy
        simp only [lexLe, if_pos rfl]
        exact ih bs
      · rcases lt_trichotomy x y with hlt | heq | hgt
        · exact Or.inl (by simp [lexLe, hxy, hlt])
        · exact absurd heq hxy
        · exact Or.inr (by simp [lexLe, Ne.symm hxy, hgt])

theorem lexLe_trans {a b c : List Char} (hab : lexLe a b = true)
    (hbc : lexLe b c = true) : lexLe a c = true := by
  induction a generalizing b c with
  | nil => rfl
  | cons x as ih =>
    cases b with
    | nil => simp [lexLe] at hab
    | cons y bs =>
      cases c with
      | nil => simp [lexLe] at hbc
      | cons z cs =>
        by_cases hxy : x = y <;> by_cases hyz : y = z
        · subst hxy; subst hyz
          simp only [lexLe, if_pos rfl] at *
          exact ih hab hbc
        · subst hxy
          simp only [lexLe, if_pos rfl] at hab
          simp only [lexLe, if_neg hyz, decide_eq_true_eq] at hbc
          simp only [lexLe, if_neg hyz, decide_eq_true_eq]
          exact hbc
        · subst hyz
          simp only [lexLe, if_neg hxy, decide_eq_true_eq] at hab
          simp only [lexLe, if_neg hxy, decide_eq_true_eq]
          exact hab
        · simp only [lexLe, if_neg hxy, decide_eq_true_eq] at hab
          simp only [lexLe, if_neg hyz, decide_eq_true_eq] at hbc
          have hxz : x < z := lt_trans hab hbc
          simp [lexLe, ne_of_lt hxz, hxz]

theorem leKeyLower_total (a b : String × String) :
    leKeyLower a b = true ∨ leKeyLower b a = true :=
  lexLe_total _ _

theorem leKeyLower_trans {a b c : String × String} (hab : leKeyLower a b = true)
    (hbc : leKeyLower b c = true) : leKeyLower a c = true :=
  lexLe_trans hab hbc

/-! ## Stable sort lemmas -/

theorem insSorted_perm {α : Type} (le : α → α → Bool) (x : α) (l : List α) :
    (insSorted le x l).Perm (x :: l) := by
  induction l with
  | nil => exact List.Perm.refl _
  | cons y ys ih =>
    simp only [insSorted]
    by_cases h : le y x = true
    · rw [if_pos h]
      exact (ih.cons y).trans (List.Perm.swap x y ys)
    · rw [if_neg h]

theorem mem_insSorted {α : Type} {le : α → α → Bool} {x z : α} {l : List α} :
    z ∈ insSorted le x l ↔ z = x ∨ z ∈ l := by
  rw [(insSorted_perm le x l).mem_iff]
  simp

theorem pairwise_insSorted {α : Type} {le : α → α → Bool}
    (htr : ∀ a b c, le a b = true → le b c = true → le a c = true)
    (hto : ∀ a b, le a b = true ∨ le b a = true)
    (x : α) {l : List α} (hl : l.Pairwise (fun a b => le a b = true)) :
    (insSorted le x l).Pairwise (fun a b => le a b = true) := by
  induction l with
  | nil => simp [insSorted]
  | cons y ys ih =>
    rcases List.pairwise_cons.mp hl with ⟨hy, hys⟩
    simp only [insSorted]
    by_cases h : le y x = true
    · rw [if_pos h]
      refine List.pairwise_cons.mpr ⟨?_, ih hys⟩
      intro z hz
      rcases mem_insSorted.mp hz with rfl | hz'
      · exact h
      · exact hy z hz'
    · rw [if_neg h]
      have hxy : le x y = true := (hto x y).resolve_right (fun hc => h hc)
      refine List.pairwise_cons.mpr ⟨?_, hl⟩
      intro z hz
      rcases List.mem_cons.mp hz with rfl | hz'
      · exact hxy
      · exact htr x y z hxy (hy z hz')

theorem stableSort_perm {α : Type} (le : α → α → Bool) (l : List α) :
    (stableSort le l).Perm l := by
  have key : ∀ (m acc : List α),
      (m.foldl (fun acc x => insSorted le x acc) acc).Perm (acc ++ m) := by
    intro m
    induction m with
    | nil => simp
    | cons x xs ih =>
      intro acc
      simp only [List.foldl_cons]
      refine (ih (insSorted le x acc)).trans ?_
      refine (((insSorted_perm le x acc).append_right xs).trans ?_)
      exact List.perm_middle.symm
  simpa [stableSort] using key l []

theorem pairwise_stableSort {α : Type} {le : α → α → Bool}
    (htr : ∀ a b c, le a b = true → le b c = true → le a c = true)
    (hto : ∀ a b, le a b = true ∨ le b a = true) (l : List α) :
    (stableSort le l).Pairwise (fun a b => le a b = true) := by
  have key : ∀ (m acc : List α), acc.Pairwise (fun a b => le a b = true) →
      (m.foldl (fun acc x => insSorted le x acc) acc).Pairwise
        (fun a b => le a b = true) := by
    intro m
    induction m with
    | nil => exact fun acc h => h
    | cons x xs ih =>
      intro acc hacc
      simp only [List.foldl_cons]
      exact ih _ (pairwise_insSorted htr hto x hacc)
  exact key l [] (by simp)

/-! ## Keybinding-normalizer analysis -/

/-- A tag content whose lowercase form the loop of `parse_keybinding`
treats as a modifier (and hence never as the final key). -/
def isModTag (m : List Char) : Bool :=
  let ml := m.map Char.toLower
  isControlTag ml || isSuperTag ml || ml = "shift".toList || ml = "alt".toList

/-- The modifier token the loop appends for a tag content, if any. -/
def modTagOf (m : List Char) : Option String :=
  let ml := m.map Char.toLower
  if isControlTag ml then none
  else if isSuperTag ml then none
  else if ml = "shift".toList then some "Shift"
  else if ml = "alt".toList then some "Alt"
  else none

theorem classifyTag_key (acc : ParseAcc) (m : List Char) :
    (classifyTag acc m).key = if isModTag m = true then acc.key else some m := by
  have e3 : ("shift".toList : List Char) = ['s', 'h', 'i', 'f', 't'] := rfl
  have e4 : ("alt".toList : List Char) = ['a', 'l', 't'] := rfl
  by_cases h1 : isControlTag (m.map Char.toLower) = true
  · simp [classifyTag, isModTag, h1]
  · by_cases h2 : isSuperTag (m.map Char.toLower) = true
    · simp [classifyTag, isModTag, h1, h2]
    · by_cases h3 : m.map Char.toLower = ['s', 'h', 'i', 'f', 't']
      · simp [classifyTag, isModTag, e3, e4, h3, isControlTag, isSuperTag]
      · by_cases h4 : m.map Char.toLower = ['a', 'l', 't']
        · simp [classifyTag, isModTag, e3, e4, h3, h4, isControlTag, isSuperTag]
        · simp [classifyTag, isModTag, e3, e4, h1, h2, h3, h4]

theorem classifyTag_modifiers (acc : ParseAcc) (m : List Char) :
    (classifyTag acc m).modifiers = acc.modifiers ++ (modTagOf m).toList := by
  have e3 : ("shift".toList : List Char) = ['s', 'h', 'i', 'f', 't'] := rfl
  have e4 : ("alt".toList : List Char) = ['a', 'l', 't'] := rfl
  by_cases h1 : isControlTag (m.map Char.toLower) = true
  · simp [classifyTag, modTagOf, h1]
  · by_cases h2 : isSuperTag (m.map Char.toLower) = true
    · simp [classifyTag, modTagOf, h1, h2]
    · by_cases h3 : m.map Char.toLower = ['s', 'h', 'i', 'f', 't']
      · simp [classifyTag, modTagOf, e3, e4, h3, isControlTag, isSuperTag]
      · by_cases h4 : m.map Char.toLower = ['a', 'l', 't']
        · simp [classifyTag, modTagOf, e3, e4, h3, h4, isControlTag, isSuperTag]
        · simp [classifyTag, modTagOf, e3, e4, h1, h2, h3, h4]

theorem foldl_classify_key_none_iff {ms : List (List Char)} (acc : ParseAcc) :
    (ms.foldl classifyTag acc).key = none ↔
      acc.key = none ∧ ∀ m ∈ ms, isModTag m = true := by
  induction ms generalizing acc with
  | nil => simp
  | cons m rest ih =>
    simp only [List.foldl_cons]
    rw [ih (classifyTag acc m), classifyTag_key]
    by_cases hm : isModTag m = true
    · rw [if_pos hm]
      simp [List.forall_mem_cons, hm]
    · rw [if_neg hm]
      simp [List.forall_mem_cons, hm]

theorem foldl_classify_modifiers {ms : List (List Char)} (acc : ParseAcc) :
    (ms.foldl classifyTag acc).modifiers =
      acc.modifiers ++ ms.filterMap modTagOf := by
  induction ms generalizing acc with
  | nil => simp
  | cons m rest ih =>
    simp only [List.foldl_cons, List.filterMap_cons]
    rw [ih (classifyTag acc m), classifyTag_modifiers]
    cases hmt : modTagOf m with
    | none => simp
    | some t => simp

/-! ## `strip` lemmas -/

theorem pyStrip_eq_nil_iff {cs : List Char} :
    pyStrip cs = [] ↔ ∀ c ∈ cs, pyIsSpace c = true := by
  simp only [pyStrip, List.reverse_eq_nil_iff, List.dropWhile_eq_nil_iff,
    List.mem_reverse]
  constructor
  · intro h c hc
    have hsplit := List.takeWhile_append_dropWhile (p := pyIsSpace) (l := cs)
    rw [← hsplit] at hc
    rcases List.mem_append.mp hc with htk | hdr
    · exact List.mem_takeWhile_imp htk
    · exact h c hdr
  · intro h c hc
    have : cs.dropWhile pyIsSpace = [] := List.dropWhile_eq_nil_iff.mpr h
    rw [this] at hc
    simp at hc

theorem mem_of_mem_pyStrip {cs : List Char} {c : Char} (h : c ∈ pyStrip cs) :
    c ∈ cs := by
  simp only [pyStrip, List.mem_reverse] at h
  have h1 := (List.dropWhile_sublist pyIsSpace).subset h
  rw [List.mem_reverse] at h1
  exact (List.dropWhile_sublist pyIsSpace).subset h1

theorem mem_dropWhile_of_not {cs : List Char} {c : Char} {p : Char → Bool}
    (hc : c ∈ cs) (hns : p c = false) : c ∈ cs.dropWhile p := by
  have hsplit := List.takeWhile_append_dropWhile (p := p) (l := cs)
  rw [← hsplit] at hc
  rcases List.mem_append.mp hc with htk | hdr
  · exact absurd (List.mem_takeWhile_imp htk) (by simp [hns])
  · exact hdr

theorem mem_pyStrip_of_not_space {cs : List Char} {c : Char} (hc : c ∈ cs)
    (hns : pyIsSpace c = false) : c ∈ pyStrip cs := by
  simp only [pyStrip, List.mem_reverse]
  exact mem_dropWhile_of_not (by simpa using mem_dropWhile_of_not hc hns) hns

/-! ## Characterization of the unparseable inputs -/

/-- The claim's "no final-key token after removal of the bracketed
modifier tags": every bracketed tag is a modifier tag, and the de-tagged
residue consists of whitespace and `+` characters only. -/
def no_final_key (binding : String) : Prop :=
  (∀ m ∈ findTags binding.toList, isModTag m = true) ∧
  (∀ c ∈ removeTags binding.toList, pyIsSpace c = true ∨ c = '+')

theorem residue_none_iff (cs : List Char) :
    (pyStrip cs = [] ∨
        pyStrip ((pyStrip cs).filter (fun c => c ≠ '+')) = []) ↔
      ∀ c ∈ cs, pyIsSpace c = true ∨ c = '+' := by
  constructor
  · rintro (h | h) c hc
    · exact Or.inl (pyStrip_eq_nil_iff.mp h c hc)
    · by_cases hsp : pyIsSpace c = true
      · exact Or.inl hsp
      · by_cases hpl : c = '+'
        · exact Or.inr hpl
        · exfalso
          have h1 : c ∈ pyStrip cs :=
            mem_pyStrip_of_not_space hc (by simpa using hsp)
          have h2 : c ∈ (pyStrip cs).filter (fun c => c ≠ '+') :=
            List.mem_filter.mpr ⟨h1, by simpa using hpl⟩
          have h3 : c ∈ pyStrip ((pyStrip cs).filter (fun c => c ≠ '+')) :=
            mem_pyStrip_of_not_space h2 (by simpa using hsp)
          rw [h] at h3
          simp at h3
  · intro h
    by_cases h1 : pyStrip cs = []
    · exact Or.inl h1
    · refine Or.inr (pyStrip_eq_nil_iff.mpr ?_)
      intro c hc
      rcases List.mem_filter.mp hc with ⟨hmem, hpl⟩
      have hcs : c ∈ cs := mem_of_mem_pyStrip hmem
      rcases h c hcs with hsp | hplus
      · exact hsp
      · exact absurd hplus (by simpa using hpl)

theorem extract_key_eq_none_iff (binding : String) :
    extract_key binding = none ↔ no_final_key binding := by
  unfold extract_key no_final_key
  cases hk : (parse_acc binding).key with
  | some k =>
    simp only [hk]
    constructor
    · intro h
      simp at h
    · rintro ⟨hmods, _⟩
      have := @foldl_classify_key_none_iff (findTags binding.toList)
        ⟨[], none, false, false⟩
      rw [show (findTags binding.toList).foldl classifyTag ⟨[], none, false, false⟩ =
        parse_acc binding from rfl, hk] at this
      exact absurd (this.mpr ⟨rfl, hmods⟩) (by simp)
  | none =>
    simp only [hk]
    have hmods : ∀ m ∈ findTags binding.toList, isModTag m = true := by
      have := @foldl_classify_key_none_iff (findTags binding.toList)
        ⟨[], none, false, false⟩
      rw [show (findTags binding.toList).foldl classifyTag ⟨[], none, false, false⟩ =
        parse_acc binding from rfl, hk] at this
      exact (this.mp rfl).2
    constructor
    · intro hnone
      refine ⟨hmods, ?_⟩
      refine (residue_none_iff (removeTags binding.toList)).mp ?_
      by_cases h1 : pyStrip (removeTags binding.toList) = []
      · exact Or.inl h1
      · rw [if_neg h1] at hnone
        by_cases h2 :
            pyStrip ((pyStrip (removeTags binding.toList)).filter
              (fun c => c ≠ '+')) = []
        · exact Or.inr h2
        · rw [if_neg h2] at hnone
          exact absurd hnone (by simp)
    · rintro ⟨_, hres⟩
      rcases (residue_none_iff (removeTags binding.toList)).mpr hres with h1 | h2
      · rw [if_pos h1]
      · by_cases h1 : pyStrip (removeTags binding.toList) = []
        · rw [if_pos h1]
        · rw [if_neg h1, if_pos h2]

/-! ## Further dict helpers for the filter claims -/

theorem value_unique_of_nodup_dkeys {d : Dict} {k v1 v2 : String}
    (hnd : (dkeys d).Nodup) (h1 : (k, v1) ∈ d) (h2 : (k, v2) ∈ d) : v1 = v2 := by
  have g1 := (dictGet_eq_some_iff_of_nodup hnd).mpr h1
  have g2 := (dictGet_eq_some_iff_of_nodup hnd).mpr h2
  rw [g1] at g2
  exact Option.some.inj g2

theorem filter_eq_nil_of_notin {d : Dict} {k : String} (hk : k ∉ dkeys d) :
    d.filter (fun q => q.1 = k) = [] := by
  refine List.filter_eq_nil_iff.mpr ?_
  intro q hq
  simp only [decide_eq_true_eq]
  intro hqk
  apply hk
  rw [← hqk]
  exact mem_dkeys.mpr ⟨q.2, hq⟩

theorem filter_eq_singleton_of_get {d : Dict} {k v : String}
    (hnd : (dkeys d).Nodup) (hget : dictGet d k = some v) :
    d.filter (fun q => q.1 = k) = [(k, v)] := by
  induction d with
  | nil => simp [dictGet] at hget
  | cons p rest ih =>
    simp only [dkeys, List.map_cons, List.nodup_cons] at hnd
    by_cases hp : p.1 = k
    · have hv : p.2 = v := by
        have : dictGet (p :: rest) k = some p.2 := by simp [dictGet, hp]
        rw [this] at hget
        injection hget
      have hrest : rest.filter (fun q => q.1 = k) = [] :=
        filter_eq_nil_of_notin (by rw [← hp]; exact hnd.1)
      have hpk : p = (k, v) := by
        rcases p with ⟨a, b⟩
        simp only at hp hv
        rw [hp, hv]
      simp [List.filter_cons, hp, hrest, hpk]
    · have hget' : dictGet rest k = some v := by
        have : dictGet (p :: rest) k = dictGet rest k := by simp [dictGet, hp]
        rw [this] at hget
        exact hget
      simp [List.filter_cons, hp, ih hnd.2 hget']

/-! ## Assembled filter lemmas -/

theorem searchParts_ne_nil {p : Pressed}
    (hp : p.ctrl = true ∨ p.super = true ∨ p.alt = true ∨ p.shift = true) :
    searchParts p ≠ [] := by
  rcases p with ⟨c, s, a, sh⟩
  cases c <;> cases s <;> cases a <;> cases sh <;> simp_all [searchParts]

theorem mem_dkeys_filter_shortcuts {s al : Dict} {p : Pressed} {k : String}
    (hp : searchParts p ≠ []) (hk : k ∈ dkeys s) :
    k ∈ dkeys (filter_shortcuts s al p) ↔
      startsLower k ((searchPfxStr p).toList.map Char.toLower) = true := by
  simp only [filter_shortcuts, if_neg hp]
  rw [mem_dkeys_foldl_alias, mem_dkeys_foldl_direct]
  constructor
  · rintro ((h0 | ⟨v, _, hsl⟩) | ⟨t, _, hsl, _⟩)
    · simp [dkeys] at h0
    · exact hsl
    · exact hsl
  · intro hsl
    rcases mem_dkeys.mp hk with ⟨v, hv⟩
    exact Or.inl (Or.inr ⟨v, hv, hsl⟩)

theorem nodup_dkeys_filter_shortcuts (s al : Dict) (p : Pressed) :
    (dkeys (filter_shortcuts s al p)).Nodup := by
  unfold filter_shortcuts
  by_cases hp : searchParts p = []
  · simp [hp, dkeys]
  · simp only [if_neg hp]
    exact nodup_dkeys_foldl_alias _ (nodup_dkeys_foldl_direct [] (by simp [dkeys]))

/-! # Claim theorems -/

/-- C1 is false as stated: with only Shift held, `filter_shortcuts` builds
the search string `Shift+` and selects matching entries, and the title
carries the label SHIFT — here the merged map `{"Shift+c": "Copy"}` with an
empty alias table yields a non-empty result and a labelled title. -/
theorem c1_counterexample :
    filter_shortcuts [("Shift+c", "Copy")] [] ⟨false, false, false, true⟩ ≠ [] ∧
    popup_title ⟨false, false, false, true⟩ ≠ "<b>Available Shortcuts</b>" := by
  decide

/-- C1 (amended): the empty result with the plain label arises exactly when
all four modifiers are false; with only Shift held the filter instead uses
the prefix `Shift+` — a merged-view key appears in the output iff it starts
with it case-insensitively — and the label SHIFT is produced. -/
theorem c1_amended (s al : Dict) (k : String) (hk : k ∈ dkeys s) :
    filter_shortcuts s al ⟨false, false, false, false⟩ = [] ∧
    popup_title ⟨false, false, false, false⟩ = "<b>Available Shortcuts</b>" ∧
    popup_title ⟨false, false, false, true⟩ =
      "<b>Available Shortcuts (SHIFT + ...)</b>" ∧
    (k ∈ dkeys (filter_shortcuts s al ⟨false, false, false, true⟩) ↔
      startsLower k "shift+".toList = true) := by
  have hsp : (searchPfxStr ⟨false, false, false, true⟩).toList.map Char.toLower =
      "shift+".toList := by decide
  have hmem := @mem_dkeys_filter_shortcuts s al ⟨false, false, false, true⟩ k
    (by decide) hk
  rw [hsp] at hmem
  exact ⟨rfl, by decide, by decide, hmem⟩

/-- C1 witness: the amended statement applied to the concrete merged map
`{"Shift+c": "Copy"}` and the key `Shift+c`. -/
theorem c1_amended_witness :
    ("Shift+c" ∈ dkeys [("Shift+c", "Copy")]) ∧
    (filter_shortcuts [("Shift+c", "Copy")] [] ⟨false, false, false, false⟩ = [] ∧
     popup_title ⟨false, false, false, false⟩ = "<b>Available Shortcuts</b>" ∧
     popup_title ⟨false, false, false, true⟩ =
       "<b>Available Shortcuts (SHIFT + ...)</b>" ∧
     ("Shift+c" ∈ dkeys (filter_shortcuts [("Shift+c", "Copy")] []
         ⟨false, false, false, true⟩) ↔
       startsLower "Shift+c" "shift+".toList = true)) :=
  ⟨by decide, c1_amended [("Shift+c", "Copy")] [] "Shift+c" (by decide)⟩

/-- C2 is false as stated: the normalizer keeps Shift/Alt in input order,
so `<Alt><Shift>Return` yields `Alt+Shift+Enter`, not `Shift+Alt+Enter`. -/
theorem c2_counterexample :
    parse_keybinding "<Alt><Shift>Return" ≠ some "Shift+Alt+Enter" := by
  decide

/-- C2 (amended): the Shift/Alt tokens of the canonical key are neither
deduplicated nor reordered — the modifier list equals the input tag
sequence filtered to Shift/Alt tags, in input order — and in particular
`<Alt><Shift>Return` normalizes to `Alt+Shift+Enter` and the duplicated
`<Shift><Shift>c` to `Shift+Shift+C`. -/
theorem c2_amended :
    (∀ binding : String,
      (parse_acc binding).modifiers = (findTags binding.toList).filterMap modTagOf) ∧
    parse_keybinding "<Alt><Shift>Return" = some "Alt+Shift+Enter" ∧
    parse_keybinding "<Shift><Shift>c" = some "Shift+Shift+C" := by
  refine ⟨fun binding => ?_, by decide, by decide⟩
  unfold parse_acc
  rw [foldl_classify_modifiers]
  rfl

/-- C3: the code disagrees with its own docstring — `<Control>c` parses to
`C` and `<Control><Shift>c` to `Shift+C` (single characters are
uppercased), while the docstring and the spec promise `c` and `Shift+c`. -/
theorem c3_code_eval :
    parse_keybinding "<Control>c" = some "C" ∧
    parse_keybinding "<Control><Shift>c" = some "Shift+C" := by
  decide

/-- C4: the merge `{**imported, **configured}` is total and
precedence-resolved — a configured key wins, a key present only in one map
keeps its value, and no key of either map is dropped. -/
theorem c4_merge_precedence (imported configured : Dict)
    (hnd : (dkeys configured).Nodup) :
    (∀ k, k ∈ dkeys configured →
      dictGet (get_all_shortcuts imported configured) k = dictGet configured k) ∧
    (∀ k, k ∉ dkeys configured →
      dictGet (get_all_shortcuts imported configured) k = dictGet imported k) ∧
    (∀ k, k ∈ dkeys (get_all_shortcuts imported configured) ↔
      k ∈ dkeys imported ∨ k ∈ dkeys configured) := by
  refine ⟨?_, ?_, ?_⟩
  · intro k hkc
    rcases mem_dkeys.mp hkc with ⟨v, hv⟩
    rw [(dictGet_eq_some_iff_of_nodup hnd).mpr hv]
    exact foldl_insert_get_mem _ hnd hv
  · intro k hkc
    exact foldl_insert_get_notin _ hkc
  · intro k
    exact mem_dkeys_foldl_insert _

/-- C4 witness: the merge statement applied to concrete maps sharing the
key `b`. -/
theorem c4_merge_precedence_witness :
    (dkeys [("b", "c2"), ("c", "c3")]).Nodup ∧
    ((∀ k, k ∈ dkeys [("b", "c2"), ("c", "c3")] →
      dictGet (get_all_shortcuts [("a", "i1"), ("b", "i2")] [("b", "c2"), ("c", "c3")]) k =
        dictGet [("b", "c2"), ("c", "c3")] k) ∧
    (∀ k, k ∉ dkeys [("b", "c2"), ("c", "c3")] →
      dictGet (get_all_shortcuts [("a", "i1"), ("b", "i2")] [("b", "c2"), ("c", "c3")]) k =
        dictGet [("a", "i1"), ("b", "i2")] k) ∧
    (∀ k, k ∈ dkeys (get_all_shortcuts [("a", "i1"), ("b", "i2")] [("b", "c2"), ("c", "c3")]) ↔
      k ∈ dkeys [("a", "i1"), ("b", "i2")] ∨ k ∈ dkeys [("b", "c2"), ("c", "c3")])) :=
  ⟨by decide, c4_merge_precedence [("a", "i1"), ("b", "i2")] [("b", "c2"), ("c", "c3")]
    (by decide)⟩

/-- C5: with at least one modifier held, a merged-view key appears in the
filter output iff it starts, case-insensitively, with the search string
built from the held modifiers in the order Ctrl, Super, Alt, Shift joined
by `+` with a trailing `+`. -/
theorem c5_filter_completeness (s al : Dict) (p : Pressed) (k : String)
    (hp : p.ctrl = true ∨ p.super = true ∨ p.alt = true ∨ p.shift = true)
    (hk : k ∈ dkeys s) :
    k ∈ dkeys (filter_shortcuts s al p) ↔
      startsLower k ((searchPfxStr p).toList.map Char.toLower) = true :=
  mem_dkeys_filter_shortcuts (searchParts_ne_nil hp) hk

/-- C5 witness: the completeness statement applied to a concrete map with
Ctrl and Shift held. -/
theorem c5_filter_completeness_witness :
    ((true : Bool) = true ∨ (false : Bool) = true ∨ (false : Bool) = true ∨
      (true : Bool) = true) ∧
    ("Ctrl+Shift+T" ∈ dkeys [("Ctrl+Shift+T", "Reopen tab"), ("Ctrl+c", "Copy")]) ∧
    ("Ctrl+Shift+T" ∈ dkeys (filter_shortcuts
        [("Ctrl+Shift+T", "Reopen tab"), ("Ctrl+c", "Copy")] []
        ⟨true, false, false, true⟩) ↔
      startsLower "Ctrl+Shift+T"
        ((searchPfxStr ⟨true, false, false, true⟩).toList.map Char.toLower) = true) :=
  ⟨Or.inl rfl, by decide,
    c5_filter_completeness [("Ctrl+Shift+T", "Reopen tab"), ("Ctrl+c", "Copy")] []
      ⟨true, false, false, true⟩ "Ctrl+Shift+T" (Or.inl rfl) (by decide)⟩

/-- C6: an alias entry whose alias matches the search string and whose
target exists in the merged view contributes an entry keyed by the alias
whose description is the target's description suffixed with
` (via <target>)`; an alias whose target is absent (and whose alias key is
not itself a merged-view key) contributes nothing. -/
theorem c6_alias_inclusion (s al : Dict) (p : Pressed)
    (hp : p.ctrl = true ∨ p.super = true ∨ p.alt = true ∨ p.shift = true)
    (hnd : (dkeys al).Nodup) :
    (∀ a t dv, (a, t) ∈ al →
      startsLower a ((searchPfxStr p).toList.map Char.toLower) = true →
      dictGet s t = some dv →
      dictGet (filter_shortcuts s al p) a = some (dv ++ " (via " ++ t ++ ")")) ∧
    (∀ a t, (a, t) ∈ al → dictGet s t = none → a ∉ dkeys s →
      a ∉ dkeys (filter_shortcuts s al p)) := by
  have hps := searchParts_ne_nil hp
  constructor
  · intro a t dv hmem hsl hget
    simp only [filter_shortcuts, if_neg hps]
    exact foldl_alias_get_mem _ hnd hmem hsl hget
  · intro a t hmem hget hnots
    simp only [filter_shortcuts, if_neg hps]
    rw [mem_dkeys_foldl_alias, mem_dkeys_foldl_direct]
    rintro ((h0 | ⟨v, hv, _⟩) | ⟨t', ht', _, hne⟩)
    · simp [dkeys] at h0
    · exact hnots (mem_dkeys.mpr ⟨v, hv⟩)
    · have heq : t' = t := value_unique_of_nodup_dkeys hnd ht' hmem
      rw [heq] at hne
      exact hne hget

/-- C6 witness: the alias statement applied to the spec's example — alias
`Shift+Delete → Insert` over a merged view containing `Insert ↦ Cut`, with
only Shift held, plus a dangling alias `Shift+x → Nope`. -/
theorem c6_alias_inclusion_witness :
    ((false : Bool) = true ∨ (false : Bool) = true ∨ (false : Bool) = true ∨
      (true : Bool) = true) ∧
    (dkeys [("Shift+Delete", "Insert"), ("Shift+x", "Nope")]).Nodup ∧
    ((∀ a t dv, (a, t) ∈ ([("Shift+Delete", "Insert"), ("Shift+x", "Nope")] : Dict) →
      startsLower a ((searchPfxStr ⟨false, false, false, true⟩).toList.map Char.toLower) = true →
      dictGet [("Insert", "Cut")] t = some dv →
      dictGet (filter_shortcuts [("Insert", "Cut")]
          [("Shift+Delete", "Insert"), ("Shift+x", "Nope")]
          ⟨false, false, false, true⟩) a = some (dv ++ " (via " ++ t ++ ")")) ∧
    (∀ a t, (a, t) ∈ ([("Shift+Delete", "Insert"), ("Shift+x", "Nope")] : Dict) →
      dictGet [("Insert", "Cut")] t = none → a ∉ dkeys [("Insert", "Cut")] →
      a ∉ dkeys (filter_shortcuts [("Insert", "Cut")]
          [("Shift+Delete", "Insert"), ("Shift+x", "Nope")]
          ⟨false, false, false, true⟩))) :=
  ⟨Or.inr (Or.inr (Or.inr rfl)), by decide,
    c6_alias_inclusion [("Insert", "Cut")]
      [("Shift+Delete", "Insert"), ("Shift+x", "Nope")]
      ⟨false, false, false, true⟩ (Or.inr (Or.inr (Or.inr rfl))) (by decide)⟩

/-- C7: the emitted rows are an ordered partition of the filtered entries —
the group whose keys occur verbatim in the configured map comes first, the
rest second, each group sorted ascending by case-insensitive key, and
together they are a permutation of the filtered entries. -/
theorem c7_grouping (filtered configured : Dict) :
    (∀ kv ∈ (update_shortcuts_list_from_keys filtered configured).1,
        hasKey configured kv.1 = true) ∧
    (∀ kv ∈ (update_shortcuts_list_from_keys filtered configured).2,
        hasKey configured kv.1 = false) ∧
    (update_shortcuts_list_from_keys filtered configured).1.Pairwise
      (fun a b => leKeyLower a b = true) ∧
    (update_shortcuts_list_from_keys filtered configured).2.Pairwise
      (fun a b => leKeyLower a b = true) ∧
    emitted_rows filtered configured =
      (update_shortcuts_list_from_keys filtered configured).1 ++
        (update_shortcuts_list_from_keys filtered configured).2 ∧
    (emitted_rows filtered configured).Perm filtered := by
  refine ⟨?_, ?_, ?_, ?_, rfl, ?_⟩
  · intro kv hkv
    simp only [update_shortcuts_list_from_keys] at hkv
    have hmem := (stableSort_perm leKeyLower _).mem_iff.mp hkv
    exact (List.mem_filter.mp hmem).2
  · intro kv hkv
    simp only [update_shortcuts_list_from_keys] at hkv
    have hmem := (stableSort_perm leKeyLower _).mem_iff.mp hkv
    have h2 := (List.mem_filter.mp hmem).2
    simpa using h2
  · exact @pairwise_stableSort (String × String) leKeyLower
      (fun a b c hab hbc => leKeyLower_trans hab hbc) leKeyLower_total _
  · exact @pairwise_stableSort (String × String) leKeyLower
      (fun a b c hab hbc => leKeyLower_trans hab hbc) leKeyLower_total _
  · simp only [emitted_rows, update_shortcuts_list_from_keys]
    refine ((stableSort_perm _ _).append (stableSort_perm _ _)).trans ?_
    exact List.filter_append_perm _ filtered

/-- C8: pressing `ctrl_l` twice from a released ctrl flag leaves the flag
held and schedules exactly one popup notification — the second press is a
no-op. -/
theorem c8_ctrl_press_idempotent (st : HState) (h : st.ctrl_pressed = false) :
    (on_press (on_press st .ctrl_l).1 .ctrl_l).1.ctrl_pressed = true ∧
    (on_press st .ctrl_l).2 ++ (on_press (on_press st .ctrl_l).1 .ctrl_l).2 =
      [.showPopup] := by
  simp [on_press, h]

/-- C8 witness: the idempotence statement applied to the all-released
session state. -/
theorem c8_ctrl_press_idempotent_witness :
    (HState.mk false false false false false).ctrl_pressed = false ∧
    ((on_press (on_press ⟨false, false, false, false, false⟩ .ctrl_l).1 .ctrl_l).1.ctrl_pressed = true ∧
    (on_press ⟨false, false, false, false, false⟩ .ctrl_l).2 ++
      (on_press (on_press ⟨false, false, false, false, false⟩ .ctrl_l).1 .ctrl_l).2 =
      [.showPopup]) :=
  ⟨rfl, c8_ctrl_press_idempotent ⟨false, false, false, false, false⟩ rfl⟩

/-- C9: the normalizer returns `none` exactly for the empty string, the
sentinel `[]`, and inputs left without a final-key token once the
bracketed modifier tags are removed (only modifier tags, and a residue of
whitespace and `+` characters); being a total function, it never raises. -/
theorem c9_parse_none_iff (binding : String) :
    parse_keybinding binding = none ↔
      binding = "" ∨ binding = "[]" ∨ no_final_key binding := by
  unfold parse_keybinding
  by_cases hb : binding = "" ∨ binding = "[]"
  · rw [if_pos hb]
    constructor
    · intro _
      rcases hb with h | h
      · exact Or.inl h
      · exact Or.inr (Or.inl h)
    · intro _
      rfl
  · rw [if_neg hb]
    push_neg at hb
    constructor
    · intro h
      refine Or.inr (Or.inr ((extract_key_eq_none_iff binding).mp ?_))
      cases hek : extract_key binding with
      | none => rfl
      | some k =>
        rw [hek] at h
        simp at h
    · rintro (h | h | h)
      · exact absurd h hb.1
      · exact absurd h hb.2
      · rw [(extract_key_eq_none_iff binding).mpr h]

/-- C10: when an alias key coincides with a merged-view key that matches
the search string and the alias target exists, the filter output carries a
single entry under that key, and its description is the alias-synthesized
one — the alias pass overwrites the directly selected description. -/
theorem c10_alias_overwrites_direct (s al : Dict) (p : Pressed)
    (k t dk dt : String)
    (hp : p.ctrl = true ∨ p.super = true ∨ p.alt = true ∨ p.shift = true)
    (hnd : (dkeys al).Nodup)
    (_hks : (k, dk) ∈ s)
    (hsl : startsLower k ((searchPfxStr p).toList.map Char.toLower) = true)
    (hal : (k, t) ∈ al)
    (hget : dictGet s t = some dt) :
    (filter_shortcuts s al p).filter (fun q => q.1 = k) =
      [(k, dt ++ " (via " ++ t ++ ")")] := by
  have hps := searchParts_ne_nil hp
  refine filter_eq_singleton_of_get (nodup_dkeys_filter_shortcuts s al p) ?_
  simp only [filter_shortcuts, if_neg hps]
  exact foldl_alias_get_mem _ hnd hal hsl hget

/-- C10 witness: the overwrite statement applied to a merged view that
directly contains the alias key `Shift+Delete` next to the alias target
`Insert`, with only Shift held. -/
theorem c10_alias_overwrites_direct_witness :
    ((false : Bool) = true ∨ (false : Bool) = true ∨ (false : Bool) = true ∨
      (true : Bool) = true) ∧
    (dkeys [("Shift+Delete", "Insert")]).Nodup ∧
    (("Shift+Delete", "Del") ∈ ([("Shift+Delete", "Del"), ("Insert", "Cut")] : Dict)) ∧
    (startsLower "Shift+Delete"
      ((searchPfxStr ⟨false, false, false, true⟩).toList.map Char.toLower) = true) ∧
    (("Shift+Delete", "Insert") ∈ ([("Shift+Delete", "Insert")] : Dict)) ∧
    (dictGet [("Shift+Delete", "Del"), ("Insert", "Cut")] "Insert" = some "Cut") ∧
    ((filter_shortcuts [("Shift+Delete", "Del"), ("Insert", "Cut")]
        [("Shift+Delete", "Insert")] ⟨false, false, false, true⟩).filter
      (fun q => q.1 = "Shift+Delete") = [("Shift+Delete", "Cut (via Insert)")]) :=
  ⟨Or.inr (Or.inr (Or.inr rfl)), by decide, by decide, by decide, by decide, by decide,
    c10_alias_overwrites_direct [("Shift+Delete", "Del"), ("Insert", "Cut")]
      [("Shift+Delete", "Insert")] ⟨false, false, false, true⟩
      "Shift+Delete" "Insert" "Del" "Cut" (Or.inr (Or.inr (Or.inr rfl)))
      (by decide) (by decide) (by decide) (by decide) (by decide)⟩

end ShortcutHelper
